import Mathlib

/-!
Verification of the job-recommendation aggregation pipeline in `src/server.js`
(DavoodPatel/Ai-Job-Recommend-Backend).

The file shallowly embeds the pipeline:
* the skill matcher `SKILLS.filter(skill => new RegExp("\\b" + escapeRegex(skill) + "\\b", "i").test(text))`
  (lines 76–78), with JavaScript `\b` word-boundary and case-insensitive
  semantics modelled explicitly over lists of characters;
* `parseDate` / `isRecent` (lines 50–63), with the JS `Date` string parser
  abstracted as an oracle `jsParse : String → Option ℚ` (result in
  milliseconds since the epoch, `none` for `NaN`);
* the four per-source response-to-JobPosting mapping lambdas inside
  `fetchJobsForSkill` (lines 93–100, 111–118, 128–135, 151–158), with absent
  JSON fields modelled as `none` and JS `x || d` string defaulting as `jsOr`;
* the `Promise.allSettled` fan-in (lines 84–166) as a fold over
  `Except`-valued outcomes;
* deduplication `Array.from(new Map(jobs.map(job => [job.url, job])).values())`
  (line 171) as a fold building an insertion-ordered association list with
  last-writer-wins values;
* the ranking `uniqueJobs.sort((a, b) => parseDate(b.date) - parseDate(a.date))`
  (line 174) as a merge sort by descending numeric timestamp, where a `null`
  parse coerces to `0` exactly as the JS subtraction does.
-/

/-- JS `\w` word-character class `[A-Za-z0-9_]` (ASCII, as in JS regexes
without the unicode flag). -/
def isWordChar (c : Char) : Bool :=
  c.isAlpha || c.isDigit || c == '_'

/-- Case-insensitive character comparison, modelling the `"i"` regex flag on
the ASCII vocabulary used by the program. -/
def charCI (a b : Char) : Bool :=
  a.toLower == b.toLower

/-- Whether position `p` of `s` holds a word character; out-of-range positions
count as non-word (as beyond-the-string does for JS `\b`). -/
def wordCharAt (s : List Char) (p : Nat) : Bool :=
  isWordChar (s.getD p ' ') && decide (p < s.length)

/-- JS `\b`: a word boundary holds between positions `p-1` and `p` iff exactly
one of the two surrounding characters is a word character. -/
def boundaryAt (s : List Char) (p : Nat) : Bool :=
  ((decide (0 < p)) && wordCharAt s (p - 1)) != wordCharAt s p

/-- The escaped literal term `t` matches the text `s` starting at index `i`
(case-insensitively): `escapeRegex` (line 45–47) makes every character of the
vocabulary term a literal, so the compiled pattern between the two `\b`
anchors is exactly a literal case-insensitive substring match. -/
def matchesAt (t s : List Char) (i : Nat) : Bool :=
  decide (i + t.length ≤ s.length) &&
    (List.range t.length).all (fun j => charCI (s.getD (i + j) ' ') (t.getD j ' '))

/-- `new RegExp("\\b" + escapeRegex(t) + "\\b", "i").test(s)`: some starting
position carries a literal case-insensitive occurrence of `t` with a JS word
boundary at both ends. -/
def testWordCI (t s : List Char) : Bool :=
  (List.range (s.length + 1)).any fun i =>
    matchesAt t s i && boundaryAt s i && boundaryAt s (i + t.length)

/-- The skill matcher, line 76–78: `vocab.filter(skill => regex.test(text))`. -/
def matchSkills (vocab : List String) (text : String) : List String :=
  vocab.filter fun skill => testWordCI skill.data text.data

/-- The fixed vocabulary `SKILLS`, lines 34–42. -/
def SKILLS : List String :=
  ["Java", "Python", "JavaScript", "React", "Node", "SQL", "C++", "C#", "AWS",
   "Azure", "GCP", "HTML", "CSS", "Docker", "Kubernetes", "Linux", "Git",
   "Spring", "Django", "Flask", "MongoDB", "PostgreSQL", "MySQL", "NoSQL",
   "Machine Learning", "AI", "Data Science", "Deep Learning", "TensorFlow",
   "PyTorch", "PowerBI", "Tableau", "DevOps", "Jenkins", "CI/CD", "Microservices",
   "Angular", "Vue", "TypeScript", "PHP", "Ruby", "Go", "Swift", "Objective-C",
   "EC", "EEE"]

/-- `uniqueSkills` of line 76: the matcher applied to the fixed vocabulary. -/
def uniqueSkills (text : String) : List String :=
  matchSkills SKILLS text

/-- Modelled from the spec: "the term occurs in `text` as a case-insensitive
whole-word match" — an occurrence of the term whose two ends are each either
an end of the text or adjacent to a non-word character.  This is the spec's
notion of whole-word occurrence, stated independently of the JS `\b`
semantics, for comparison with `testWordCI`. -/
def occursWholeWordCI (t s : List Char) : Bool :=
  (List.range (s.length + 1)).any fun i =>
    matchesAt t s i &&
      (decide (i = 0) || !wordCharAt s (i - 1)) &&
      (decide (i + t.length = s.length) || !wordCharAt s (i + t.length))

/-- JS string defaulting `x || d`: an absent (`undefined`) or empty string is
falsy and is replaced by the default. -/
def jsOr (x : Option String) (d : String) : String :=
  match x with
  | none => d
  | some s => if s == "" then d else s

/-- `parseDate` (lines 50–54).  The JS `Date` string parser is abstracted as
an oracle `jsParse` giving the timestamp in milliseconds (`none` when
`new Date(s)` is `Invalid Date`, i.e. `isNaN(parsed)`).  `!dateStr` is true
for a missing (`none`) or empty date string. -/
def parseDate (jsParse : String → Option ℚ) (dateStr : Option String) : Option ℚ :=
  match dateStr with
  | none => none
  | some s => if s == "" then none else jsParse s

/-- `isRecent` (lines 57–63): `diffDays = (now - postDate) / (1000*60*60*24)`
and the posting is recent iff `diffDays <= days`. -/
def isRecent (jsParse : String → Option ℚ) (now : ℚ) (dateStr : Option String)
    (days : ℚ) : Bool :=
  match parseDate jsParse dateStr with
  | none => false
  | some postDate => decide ((now - postDate) / (1000 * 60 * 60 * 24) ≤ days)

/-- The common JobPosting shape produced by every per-source mapping.
`title` is an `Option` because one mapping copies a possibly-absent source
field without a default (The Muse `title: job.name`, RemoteOK
`title: job.position`); the other fields are always defined strings. -/
structure Job where
  title : Option String
  company : String
  location : String
  url : String
  date : String
  skill : String
deriving DecidableEq, Repr

/-- An Arbeitnow response item (the fields the mapping reads); `none` models
an absent JSON field. -/
structure ArbeitnowItem where
  title : Option String
  company : Option String
  location : Option String
  url : Option String
  created_at : Option String
deriving DecidableEq, Repr

/-- Arbeitnow mapping, lines 93–100. -/
def arbeitnowMap (skill : String) (job : ArbeitnowItem) : Job :=
  { title := some (jsOr job.title "No title")
    company := jsOr job.company "Unknown"
    location := jsOr job.location "Remote"
    url := jsOr job.url "#"
    date := jsOr job.created_at ""
    skill := skill }

/-- A Muse response item; `companyName` models `job.company?.name` and
`locations` models `job.locations` with each `loc.name` collapsed to its
string, so `job.locations?.map(loc => loc.name).join(", ")` becomes
`locations.map (String.intercalate ", ")`; `landingPage` models
`job.refs?.landing_page`. -/
structure MuseItem where
  name : Option String
  companyName : Option String
  locations : Option (List String)
  landingPage : Option String
  publication_date : Option String
deriving DecidableEq, Repr

/-- The Muse mapping, lines 111–118.  Note `title := job.name` verbatim: no
default is applied to the title. -/
def museMap (skill : String) (job : MuseItem) : Job :=
  { title := job.name
    company := jsOr job.companyName "Unknown"
    location := jsOr (job.locations.map (String.intercalate ", ")) "Remote"
    url := jsOr job.landingPage "#"
    date := jsOr job.publication_date ""
    skill := skill }

/-- A RemoteOK response item (the fields the mapping reads). -/
structure RemoteOKItem where
  position : Option String
  company : Option String
  location : Option String
  url : Option String
  date : Option String
deriving DecidableEq, Repr

/-- RemoteOK mapping, lines 128–135.  Note `title := job.position` verbatim:
no default is applied to the title. -/
def remoteokMap (skill : String) (job : RemoteOKItem) : Job :=
  { title := job.position
    company := jsOr job.company "Unknown"
    location := jsOr job.location "Remote"
    url := jsOr job.url "#"
    date := jsOr job.date ""
    skill := skill }

/-- A Remotive response item (the fields the mapping reads). -/
structure RemotiveItem where
  title : Option String
  company_name : Option String
  candidate_required_location : Option String
  url : Option String
  publication_date : Option String
deriving DecidableEq, Repr

/-- Remotive mapping, lines 151–158. -/
def remotiveMap (skill : String) (job : RemotiveItem) : Job :=
  { title := some (jsOr job.title "No title")
    company := jsOr job.company_name "Unknown"
    location := jsOr job.candidate_required_location "Remote"
    url := jsOr job.url "#"
    date := jsOr job.publication_date ""
    skill := skill }

/-- The settled outcome of one source call: `Promise.allSettled` never
rejects, it tags each promise as fulfilled (with its job list) or rejected
(with a reason). -/
abbrev Outcome := Except String (List Job)

/-- The fan-in loop of `fetchJobsForSkill` (lines 162–165): each fulfilled
outcome's jobs are pushed onto the accumulator, each rejected outcome is only
logged. -/
def settleInto (jobs : List Job) (results : List Outcome) : List Job :=
  results.foldl
    (fun acc r =>
      match r with
      | .ok v => acc ++ v
      | .error _ => acc)
    jobs

/-- The whole aggregation (lines 81–168): starting from `jobs = []`, every
skill's four settled source outcomes are folded in. -/
def aggregate (perSkill : List (List Outcome)) : List Job :=
  perSkill.foldl settleInto []

/-- One `map.set(url, job)` step of `new Map(jobs.map(job => [job.url, job]))`
(line 171): setting an existing key replaces its value in place, a new key is
appended. -/
def insertJob (m : List (String × Job)) (j : Job) : List (String × Job) :=
  if m.any (fun p => p.1 == j.url) then
    m.map (fun p => if p.1 == j.url then (p.1, j) else p)
  else
    m ++ [(j.url, j)]

/-- `Array.from(new Map(jobs.map(job => [job.url, job])).values())`
(line 171): build the Map in traversal order, then list its values in
insertion order. -/
def uniqueJobs (jobs : List Job) : List Job :=
  (jobs.foldl insertJob []).map Prod.snd

/-- The numeric sort key of line 174: `parseDate(job.date)` as used in the
comparator subtraction, where the `null` returned for an unparseable date
coerces to `0`. -/
def dateKey (jsParse : String → Option ℚ) (j : Job) : ℚ :=
  (parseDate jsParse (some j.date)).getD 0

/-- The comparator of line 174 as an ordering test: `a` precedes `b` when
`parseDate(b.date) - parseDate(a.date) ≤ 0`, i.e. `b`'s key is at most `a`'s. -/
def rankLE (jsParse : String → Option ℚ) (a b : Job) : Bool :=
  decide (dateKey jsParse b ≤ dateKey jsParse a)

/-- `uniqueJobs.sort((a, b) => parseDate(b.date) - parseDate(a.date))`
(line 174): a sort that is ascending in the comparator, i.e. descending in
the numeric date key. -/
def rank (jsParse : String → Option ℚ) (jobs : List Job) : List Job :=
  jobs.mergeSort (rankLE jsParse)

/-! ## Claim C2: the skill matcher returns a duplicate-free, vocabulary-ordered
list of accepted terms -/

/-- Counterexample to C2 as stated: the word-boundary regex accepts `"C#"` in
the text `"C#x"` (JS `\b` holds between `'#'` and `'x'` because exactly one of
them is a word character), so the matcher lists a term that does not occur as
a whole word in the text; and a vocabulary with a duplicated term is listed
twice, not at most once. -/
theorem matchSkills_wholeword_cex :
    matchSkills ["C#"] "C#x" = ["C#"] ∧
      occursWholeWordCI "C#".data "C#x".data = false ∧
      matchSkills ["Java", "Java"] "I know Java" = ["Java", "Java"] := by
  decide

/-- C2 (amended): for a duplicate-free vocabulary `V`, the matcher's result is
a sublist of `V` (hence lists terms in `V`'s order), contains only terms that
the case-insensitive word-boundary regex test accepts on `T`, and lists each
term at most once. -/
theorem matchSkills_sound (V : List String) (T : String) (hV : V.Nodup) :
    (matchSkills V T).Sublist V ∧
      (∀ s ∈ matchSkills V T, testWordCI s.data T.data = true) ∧
      (matchSkills V T).Nodup :=
  ⟨List.filter_sublist _, fun _ hs => (List.mem_filter.mp hs).2, hV.filter _⟩

/-- Witness for `matchSkills_sound` at a concrete vocabulary and text. -/
theorem matchSkills_sound_witness :
    (["Java", "Python"] : List String).Nodup ∧
      ((matchSkills ["Java", "Python"] "I know Java").Sublist ["Java", "Python"] ∧
        (∀ s ∈ matchSkills ["Java", "Python"] "I know Java",
          testWordCI s.data "I know Java".data = true) ∧
        (matchSkills ["Java", "Python"] "I know Java").Nodup) :=
  ⟨by decide, matchSkills_sound ["Java", "Python"] "I know Java" (by decide)⟩

/-! ## Claim C3: escaping makes `C++` match literally — the escaping does make
the characters literal, but the trailing `\b` of the compiled pattern requires
a word character after the final `'+'`, so `"C++"` never matches in
`"5 years of C++ experience"`; the vocabulary entries `"C++"` and `"C#"` are
unreachable on ordinary text, contradicting the program's own intent. -/

/-- Evaluation of the matcher at the failing input of C3: the extractor returns
no skill at all on `"5 years of C++ experience"` (in particular not `"C++"`),
even though the second half of the claim — `"C++"` does not match a text
containing only `"C"` — does hold. -/
theorem uniqueSkills_cpp_eval :
    uniqueSkills "5 years of C++ experience" = [] ∧
      matchSkills ["C++"] "5 years of C++ experience" = [] ∧
      testWordCI "C++".data "C".data = false := by
  decide

/-! ## Claim C6: the recency check -/

/-- C6: `isRecent` returns `true` exactly when the date string parses and the
parsed moment is at most `days` days (inclusive) before `now`; a missing or
unparseable date yields `false`.  The bound `now - t ≤ days · 86400000` ms is
exactly `((now - t) / (1000·60·60·24)) ≤ days`. -/
theorem isRecent_iff (jsParse : String → Option ℚ) (now days : ℚ)
    (d : Option String) :
    isRecent jsParse now d days = true ↔
      ∃ t, parseDate jsParse d = some t ∧ now - t ≤ days * (1000 * 60 * 60 * 24) := by
  unfold isRecent
  cases h : parseDate jsParse d with
  | none => simp
  | some t =>
    simp only [decide_eq_true_eq, Option.some.injEq]
    constructor
    · intro hle
      exact ⟨t, rfl, (div_le_iff₀ (by norm_num)).mp hle⟩
    · rintro ⟨t', ht', hle⟩
      subst ht'
      exact (div_le_iff₀ (by norm_num)).mpr hle

/-! ## Claim C1: settle-all fan-in with per-call failure isolation -/

/-- The job list a settled outcome contributes: `some` of its postings when
fulfilled, `none` when rejected. -/
def fulfilled (r : Outcome) : Option (List Job) :=
  match r with
  | .ok v => some v
  | .error _ => none

theorem settleInto_eq (jobs : List Job) (results : List Outcome) :
    settleInto jobs results = jobs ++ (results.filterMap fulfilled).flatten := by
  induction results generalizing jobs with
  | nil => simp [settleInto]
  | cons r rs ih =>
    cases r with
    | ok v =>
      have h1 : settleInto jobs (.ok v :: rs) = settleInto (jobs ++ v) rs := rfl
      rw [h1, ih (jobs ++ v)]
      simp [List.filterMap_cons, fulfilled, List.append_assoc]
    | error e =>
      have h1 : settleInto jobs (.error e :: rs) = settleInto jobs rs := rfl
      rw [h1, ih jobs]
      simp [List.filterMap_cons, fulfilled]

theorem aggregate_eq (perSkill : List (List Outcome)) :
    aggregate perSkill =
      (perSkill.map fun results => (results.filterMap fulfilled).flatten).flatten := by
  suffices h : ∀ init, perSkill.foldl settleInto init =
      init ++ (perSkill.map fun results => (results.filterMap fulfilled).flatten).flatten by
    simpa [aggregate] using h []
  induction perSkill with
  | nil => intro init; simp
  | cons rs pss ih =>
    intro init
    simp only [List.foldl_cons, ih, settleInto_eq, List.map_cons, List.flatten_cons,
      List.append_assoc]

/-- C1: the fan-in keeps every fulfilled call's postings: `aggregate` equals
the concatenation of exactly the fulfilled outcomes' job lists, and whenever
some source call for some skill fulfilled with postings `v`, every posting of
`v` is in the aggregated output — no matter how the other calls failed. -/
theorem aggregate_isolates_failures (perSkill : List (List Outcome)) :
    aggregate perSkill =
      (perSkill.map fun results => (results.filterMap fulfilled).flatten).flatten ∧
      ∀ results ∈ perSkill, ∀ v : List Job, Except.ok v ∈ results →
        ∀ j ∈ v, j ∈ aggregate perSkill := by
  refine ⟨aggregate_eq perSkill, ?_⟩
  intro results hres v hv j hj
  rw [aggregate_eq]
  refine List.mem_flatten.mpr ⟨(results.filterMap fulfilled).flatten, ?_, ?_⟩
  · exact List.mem_map.mpr ⟨results, hres, rfl⟩
  · exact List.mem_flatten.mpr ⟨v, List.mem_filterMap.mpr ⟨.ok v, hv, rfl⟩, hj⟩

/-- A sample posting for concrete instantiations. -/
def jobW : Job :=
  { title := some "T", company := "C", location := "L",
    url := "u", date := "d", skill := "Java" }

/-- One skill's settled outcomes: the first source call rejected, the second
fulfilled with `[jobW]`. -/
def outcomesW : List Outcome :=
  [Except.error "network down", Except.ok [jobW]]

/-- Witness for `aggregate_isolates_failures`: with one rejected and one
fulfilled source call, the fulfilled posting is still returned. -/
theorem aggregate_isolates_failures_witness :
    (outcomesW ∈ [outcomesW] ∧ Except.ok [jobW] ∈ outcomesW ∧ jobW ∈ [jobW]) ∧
      jobW ∈ aggregate [outcomesW] :=
  ⟨⟨List.mem_singleton.mpr rfl,
    List.mem_cons_of_mem _ (List.mem_singleton.mpr rfl),
    List.mem_singleton.mpr rfl⟩,
    (aggregate_isolates_failures [outcomesW]).2 outcomesW
      (List.mem_singleton.mpr rfl) [jobW]
      (List.mem_cons_of_mem _ (List.mem_singleton.mpr rfl)) jobW
      (List.mem_singleton.mpr rfl)⟩

/-! ## Claim C7: per-source field defaults -/

/-- Counterexample to C7 as stated: The Muse mapping copies `job.name` into
the title with no default (`title: job.name`), and the RemoteOK mapping
likewise copies `job.position`, so a source item without that field maps to a
posting whose title is absent, not a non-empty placeholder. -/
theorem mapping_title_default_cex :
    (museMap "Java" { name := none, companyName := none, locations := none,
                      landingPage := none, publication_date := none }).title = none ∧
      (remoteokMap "Java" { position := none, company := none, location := none,
                            url := none, date := none }).title = none := by
  decide

/-- C7 (amended): every mapping defaults a missing company to `"Unknown"` and
a missing location to `"Remote"`; the title defaults to the placeholder
`"No title"` in the Arbeitnow and Remotive mappings, while The Muse and
RemoteOK mappings copy the source's name/position field without a default. -/
theorem mapping_defaults (skill : String) :
    (∀ a : ArbeitnowItem,
      (a.title = none → (arbeitnowMap skill a).title = some "No title") ∧
      (a.company = none → (arbeitnowMap skill a).company = "Unknown") ∧
      (a.location = none → (arbeitnowMap skill a).location = "Remote")) ∧
    (∀ m : MuseItem,
      (museMap skill m).title = m.name ∧
      (m.companyName = none → (museMap skill m).company = "Unknown") ∧
      (m.locations = none → (museMap skill m).location = "Remote")) ∧
    (∀ r : RemoteOKItem,
      (remoteokMap skill r).title = r.position ∧
      (r.company = none → (remoteokMap skill r).company = "Unknown") ∧
      (r.location = none → (remoteokMap skill r).location = "Remote")) ∧
    (∀ v : RemotiveItem,
      (v.title = none → (remotiveMap skill v).title = some "No title") ∧
      (v.company_name = none → (remotiveMap skill v).company = "Unknown") ∧
      (v.candidate_required_location = none →
        (remotiveMap skill v).location = "Remote")) := by
  refine ⟨fun a => ⟨?_, ?_, ?_⟩, fun m => ⟨rfl, ?_, ?_⟩,
    fun r => ⟨rfl, ?_, ?_⟩, fun v => ⟨?_, ?_, ?_⟩⟩ <;>
    intro h <;> simp [arbeitnowMap, museMap, remoteokMap, remotiveMap, jsOr, h]

/-- Witness for `mapping_defaults` at fully-absent source items. -/
theorem mapping_defaults_witness :
    (({ title := none, company := none, location := none, url := none,
        created_at := none } : ArbeitnowItem).title = none) ∧
      (arbeitnowMap "Java" { title := none, company := none, location := none,
                             url := none, created_at := none }).title =
        some "No title" :=
  ⟨rfl, ((mapping_defaults "Java").1
    { title := none, company := none, location := none, url := none,
      created_at := none }).1 rfl⟩

/-! ## Claim C10: absent urls all default to `"#"` and collapse under dedup -/

/-- Any list of jobs whose urls are pairwise distinct has at most one element
with any given url. -/
theorem length_filter_url_le_one (l : List Job) (u : String)
    (h : (l.map (fun j => j.url)).Nodup) :
    (l.filter (fun j => j.url == u)).length ≤ 1 := by
  induction l with
  | nil => simp
  | cons j t ih =>
    simp only [List.map_cons, List.nodup_cons] at h
    by_cases hju : j.url = u
    · have ht : t.filter (fun x => x.url == u) = [] := by
        apply List.filter_eq_nil_iff.mpr
        intro x hx hxe
        exact h.1 (hju ▸ (beq_iff_eq.mp hxe) ▸ List.mem_map_of_mem (fun j => j.url) hx)
      simp [List.filter_cons, hju, ht]
    · simpa [List.filter_cons, hju] using ih h.2

/-! ## The dedup Map: helper lemmas about `insertJob` and its fold -/

/-- Keyed access into the association list modelling the JS `Map`. -/
def findUrl (u : String) : List (String × Job) → Option Job
  | [] => none
  | p :: t => if p.1 = u then some p.2 else findUrl u t

theorem findUrl_eq_none (u : String) (m : List (String × Job)) :
    findUrl u m = none ↔ u ∉ m.map Prod.fst := by
  induction m with
  | nil => simp [findUrl]
  | cons p t ih =>
    by_cases h : p.1 = u
    · simp [findUrl, h]
    · simp [findUrl, h, ih, Ne.symm h]

theorem findUrl_append (u : String) (m m' : List (String × Job)) :
    findUrl u (m ++ m') = (findUrl u m).or (findUrl u m') := by
  induction m with
  | nil => simp [findUrl]
  | cons p t ih =>
    by_cases h : p.1 = u <;> simp [findUrl, h, ih]

theorem findUrl_replace_ne (u : String) (j : Job) (m : List (String × Job))
    (h : u ≠ j.url) :
    findUrl u (m.map fun p => if p.1 == j.url then (p.1, j) else p) =
      findUrl u m := by
  induction m with
  | nil => simp [findUrl]
  | cons p t ih =>
    simp only [beq_iff_eq] at ih ⊢
    by_cases hp : p.1 = j.url
    · have hpu : p.1 ≠ u := fun he => h (he ▸ hp)
      simp [findUrl, hp, hpu, Ne.symm h, ih]
    · by_cases hpu : p.1 = u <;> simp [findUrl, hp, hpu, h, ih]

theorem findUrl_replace_eq (j : Job) (m : List (String × Job))
    (h : j.url ∈ m.map Prod.fst) :
    findUrl j.url (m.map fun p => if p.1 == j.url then (p.1, j) else p) =
      some j := by
  induction m with
  | nil => simp at h
  | cons p t ih =>
    simp only [beq_iff_eq] at ih ⊢
    by_cases hp : p.1 = j.url
    · simp [findUrl, hp]
    · have ht : j.url ∈ t.map Prod.fst := by
        rcases List.mem_map.mp h with ⟨q, hq, hqe⟩
        rcases List.mem_cons.mp hq with rfl | hq'
        · exact absurd hqe hp
        · exact hqe ▸ List.mem_map_of_mem Prod.fst hq'
      simp [findUrl, hp, ih ht]

theorem any_url_iff (m : List (String × Job)) (u : String) :
    m.any (fun p => p.1 == u) = true ↔ u ∈ m.map Prod.fst := by
  rw [List.any_eq_true]
  constructor
  · rintro ⟨p, hp, hpe⟩
    exact (beq_iff_eq.mp hpe) ▸ List.mem_map_of_mem Prod.fst hp
  · intro h
    rcases List.mem_map.mp h with ⟨p, hp, rfl⟩
    exact ⟨p, hp, beq_iff_eq.mpr rfl⟩

theorem findUrl_insertJob (u : String) (m : List (String × Job)) (j : Job) :
    findUrl u (insertJob m j) = if u = j.url then some j else findUrl u m := by
  unfold insertJob
  by_cases hc : m.any (fun p => p.1 == j.url) = true
  · rw [if_pos hc]
    by_cases hu : u = j.url
    · rw [if_pos hu, hu, findUrl_replace_eq j m ((any_url_iff m j.url).mp hc)]
    · rw [if_neg hu, findUrl_replace_ne u j m hu]
  · rw [if_neg hc, findUrl_append]
    by_cases hu : u = j.url
    · subst hu
      have h0 : findUrl j.url m = none :=
        (findUrl_eq_none j.url m).mpr (fun hmem => hc ((any_url_iff m j.url).mpr hmem))
      rw [h0, Option.none_or]
      simp [findUrl]
    · rw [if_neg hu]
      have h1 : findUrl u [(j.url, j)] = none := by
        simp [findUrl, Ne.symm hu]
      rw [h1, Option.or_none]

theorem fst_insertJob (m : List (String × Job)) (j : Job) :
    (insertJob m j).map Prod.fst =
      if m.any (fun p => p.1 == j.url) = true then m.map Prod.fst
      else m.map Prod.fst ++ [j.url] := by
  by_cases hc : m.any (fun p => p.1 == j.url) = true
  · rw [if_pos hc]
    unfold insertJob
    rw [if_pos hc, List.map_map]
    apply List.map_congr_left
    intro p _
    by_cases hp : p.1 = j.url <;> simp [Function.comp, hp]
  · rw [if_neg hc]
    unfold insertJob
    rw [if_neg hc]
    simp

theorem nodup_fst_insertJob (m : List (String × Job)) (j : Job)
    (h : (m.map Prod.fst).Nodup) : ((insertJob m j).map Prod.fst).Nodup := by
  rw [fst_insertJob]
  by_cases hc : m.any (fun p => p.1 == j.url) = true
  · rw [if_pos hc]; exact h
  · rw [if_neg hc]
    have hj : j.url ∉ m.map Prod.fst := fun hmem => hc ((any_url_iff m j.url).mpr hmem)
    simp [List.nodup_append, h, hj]

theorem mem_fst_insertJob (m : List (String × Job)) (j : Job) (u : String) :
    u ∈ (insertJob m j).map Prod.fst ↔ u ∈ m.map Prod.fst ∨ u = j.url := by
  rw [fst_insertJob]
  by_cases hc : m.any (fun p => p.1 == j.url) = true
  · rw [if_pos hc]
    have hj : j.url ∈ m.map Prod.fst := (any_url_iff m j.url).mp hc
    constructor
    · exact Or.inl
    · rintro (hm | rfl)
      · exact hm
      · exact hj
  · rw [if_neg hc]; simp

theorem snd_url_insertJob (m : List (String × Job)) (j : Job)
    (h : ∀ p ∈ m, (Prod.snd p).url = p.1) :
    ∀ p ∈ insertJob m j, (Prod.snd p).url = p.1 := by
  intro p hp
  unfold insertJob at hp
  by_cases hc : m.any (fun q => q.1 == j.url) = true
  · rw [if_pos hc] at hp
    rcases List.mem_map.mp hp with ⟨q, hq, rfl⟩
    by_cases hqe : q.1 = j.url <;> simp [hqe, h q hq]
  · rw [if_neg hc] at hp
    rcases List.mem_append.mp hp with h1 | h2
    · exact h p h1
    · rcases List.mem_singleton.mp h2 with rfl
      rfl

theorem foldl_nodup_fst (L : List Job) :
    ∀ m : List (String × Job), (m.map Prod.fst).Nodup →
      ((L.foldl insertJob m).map Prod.fst).Nodup := by
  induction L with
  | nil => intro m h; simpa using h
  | cons j t ih => intro m h; exact ih _ (nodup_fst_insertJob m j h)

theorem foldl_snd_url (L : List Job) :
    ∀ m : List (String × Job), (∀ p ∈ m, (Prod.snd p).url = p.1) →
      ∀ p ∈ L.foldl insertJob m, (Prod.snd p).url = p.1 := by
  induction L with
  | nil => intro m h; simpa using h
  | cons j t ih => intro m h; exact ih _ (snd_url_insertJob m j h)

theorem foldl_mem_fst (L : List Job) :
    ∀ (m : List (String × Job)) (u : String),
      u ∈ (L.foldl insertJob m).map Prod.fst ↔
        u ∈ m.map Prod.fst ∨ u ∈ L.map (fun x => x.url) := by
  induction L with
  | nil => intro m u; simp
  | cons j t ih =>
    intro m u
    rw [List.foldl_cons, ih, mem_fst_insertJob]
    simp [or_assoc]

/-- The last element of the traversal whose url is `u` — the "last writer" of
the Map entry for key `u`. -/
def lastWith (u : String) : List Job → Option Job
  | [] => none
  | j :: t => (lastWith u t).or (if j.url = u then some j else none)

theorem foldl_findUrl (u : String) (L : List Job) :
    ∀ m : List (String × Job),
      findUrl u (L.foldl insertJob m) = (lastWith u L).or (findUrl u m) := by
  induction L with
  | nil => intro m; simp [lastWith]
  | cons j t ih =>
    intro m
    rw [List.foldl_cons, ih]
    simp only [lastWith]
    cases hl : lastWith u t with
    | none =>
      simp only [hl, Option.none_or]
      rw [findUrl_insertJob]
      by_cases hu : u = j.url
      · simp [hu]
      · simp [hu, Ne.symm hu]
    | some x => simp [hl]

theorem getLast?_cons_or {α : Type} (j : α) (l : List α) :
    (j :: l).getLast? = (l.getLast?).or (some j) := by
  cases l with
  | nil => simp
  | cons b t =>
    rw [List.getLast?_cons_cons]
    have hS : ((b :: t).getLast?).isSome := List.getLast?_isSome.mpr (by simp)
    obtain ⟨x, hx⟩ := Option.isSome_iff_exists.mp hS
    simp [hx]

theorem lastWith_eq_filter_getLast? (u : String) (L : List Job) :
    lastWith u L = (L.filter (fun x => x.url == u)).getLast? := by
  induction L with
  | nil => simp [lastWith]
  | cons j t ih =>
    simp only [lastWith, List.filter_cons]
    by_cases hj : j.url = u
    · rw [if_pos hj, if_pos (beq_iff_eq.mpr hj), getLast?_cons_or, ih]
    · rw [if_neg hj, if_neg (by simpa using hj), Option.or_none, ih]

theorem findUrl_of_mem (m : List (String × Job)) (p : String × Job)
    (hnd : (m.map Prod.fst).Nodup) (hp : p ∈ m) : findUrl p.1 m = some p.2 := by
  induction m with
  | nil => simp at hp
  | cons q t ih =>
    rw [List.map_cons, List.nodup_cons] at hnd
    rcases List.mem_cons.mp hp with rfl | hpt
    · simp [findUrl]
    · have hq : q.1 ≠ p.1 := by
        intro he
        exact hnd.1 (he ▸ List.mem_map_of_mem Prod.fst hpt)
      simp [findUrl, hq, ih hnd.2 hpt]

theorem uniqueJobs_map_url (L : List Job) :
    (uniqueJobs L).map (fun j => j.url) = (L.foldl insertJob []).map Prod.fst := by
  unfold uniqueJobs
  rw [List.map_map]
  exact List.map_congr_left fun p hp => foldl_snd_url L [] (by simp) p hp

theorem uniqueJobs_urls_nodup (L : List Job) :
    ((uniqueJobs L).map (fun j => j.url)).Nodup := by
  rw [uniqueJobs_map_url]
  exact foldl_nodup_fst L [] (by simp)

theorem uniqueJobs_mem_url (L : List Job) (u : String) :
    u ∈ (uniqueJobs L).map (fun j => j.url) ↔ u ∈ L.map (fun j => j.url) := by
  rw [uniqueJobs_map_url]
  simpa using foldl_mem_fst L [] u

theorem uniqueJobs_last_wins (L : List Job) (j : Job) (hj : j ∈ uniqueJobs L) :
    (L.filter (fun x => x.url == j.url)).getLast? = some j := by
  rcases List.mem_map.mp hj with ⟨p, hp, rfl⟩
  have hurl : (Prod.snd p).url = p.1 := foldl_snd_url L [] (by simp) p hp
  have hfind : findUrl p.1 (L.foldl insertJob []) = some p.2 :=
    findUrl_of_mem _ p (foldl_nodup_fst L [] (by simp)) hp
  rw [foldl_findUrl, show findUrl p.1 ([] : List (String × Job)) = none from rfl,
    Option.or_none] at hfind
  rw [← lastWith_eq_filter_getLast?, hurl]
  exact hfind

/-! ## Claim C4: one posting per distinct url, last writer wins -/

/-- C4: `uniqueJobs` keeps exactly one posting per distinct url of the input
(the output's urls are duplicate-free and range over exactly the input's
urls), and the posting kept for each url is the last one in traversal order
with that url. -/
theorem uniqueJobs_one_per_url_last_wins (L : List Job) :
    ((uniqueJobs L).map (fun j => j.url)).Nodup ∧
      (∀ u : String,
        u ∈ (uniqueJobs L).map (fun j => j.url) ↔ u ∈ L.map (fun j => j.url)) ∧
      ∀ j ∈ uniqueJobs L, (L.filter (fun x => x.url == j.url)).getLast? = some j :=
  ⟨uniqueJobs_urls_nodup L, fun u => uniqueJobs_mem_url L u,
    fun j hj => uniqueJobs_last_wins L j hj⟩

/-- A second posting with the same url `"u"` as `jobW` but different content. -/
def jobW2 : Job :=
  { title := some "S", company := "C2", location := "L2",
    url := "u", date := "d2", skill := "SQL" }

/-- Witness for `uniqueJobs_one_per_url_last_wins`: of two postings sharing
url `"u"`, the later one (`jobW`) is the one kept. -/
theorem uniqueJobs_one_per_url_last_wins_witness :
    jobW ∈ uniqueJobs [jobW2, jobW] ∧
      ([jobW2, jobW].filter (fun x => x.url == jobW.url)).getLast? = some jobW :=
  ⟨by decide,
    (uniqueJobs_one_per_url_last_wins [jobW2, jobW]).2.2 jobW (by decide)⟩

/-! ## Claim C5: dedup idempotence -/

theorem foldl_insertJob_fresh (L : List Job) :
    ∀ m : List (String × Job), (L.map (fun j => j.url)).Nodup →
      (∀ x ∈ L, x.url ∉ m.map Prod.fst) →
      L.foldl insertJob m = m ++ L.map (fun j => (j.url, j)) := by
  induction L with
  | nil => intro m _ _; simp
  | cons j t ih =>
    intro m hnd hfresh
    rw [List.map_cons, List.nodup_cons] at hnd
    have hjm : ¬(m.any (fun p => p.1 == j.url) = true) := fun hc =>
      hfresh j (List.mem_cons_self j t) ((any_url_iff m j.url).mp hc)
    have hfresh2 : ∀ x ∈ t, x.url ∉ (m ++ [(j.url, j)]).map Prod.fst := by
      intro x hx hmem
      rw [List.map_append, List.mem_append] at hmem
      rcases hmem with hm | hs
      · exact hfresh x (List.mem_cons_of_mem j hx) hm
      · have hxj : x.url = j.url := by simpa using hs
        exact hnd.1 (hxj ▸ List.mem_map_of_mem (fun y => y.url) hx)
    rw [List.foldl_cons,
      show insertJob m j = m ++ [(j.url, j)] from by unfold insertJob; rw [if_neg hjm],
      ih _ hnd.2 hfresh2]
    simp

theorem uniqueJobs_eq_self_of_nodup (L : List Job)
    (h : (L.map (fun j => j.url)).Nodup) : uniqueJobs L = L := by
  unfold uniqueJobs
  rw [foldl_insertJob_fresh L [] h (by simp), List.nil_append, List.map_map]
  have e : List.map (Prod.snd ∘ fun j => (j.url, j)) L = List.map id L :=
    List.map_congr_left fun j _ => rfl
  rw [e, List.map_id]

/-- C5: dedup is idempotent, its result has pairwise distinct urls, and so
does the final ranked output built from it. -/
theorem uniqueJobs_idempotent (L : List Job) :
    uniqueJobs (uniqueJobs L) = uniqueJobs L ∧
      List.Pairwise (fun a b => a.url ≠ b.url) (uniqueJobs L) ∧
      ∀ jsParse : String → Option ℚ,
        List.Pairwise (fun a b => a.url ≠ b.url) (rank jsParse (uniqueJobs L)) := by
  have hnd := uniqueJobs_urls_nodup L
  have hpw : List.Pairwise (fun a b => a.url ≠ b.url) (uniqueJobs L) :=
    List.pairwise_map.mp hnd
  refine ⟨uniqueJobs_eq_self_of_nodup (uniqueJobs L) hnd, hpw, ?_⟩
  intro jsParse
  unfold rank
  exact (List.Perm.pairwise_iff (fun hxy => Ne.symm hxy)
    (List.mergeSort_perm (uniqueJobs L) (rankLE jsParse))).mpr hpw

/-- Witness for `uniqueJobs_idempotent` at a concrete two-element list with a
shared url. -/
theorem uniqueJobs_idempotent_witness :
    uniqueJobs (uniqueJobs [jobW2, jobW]) = uniqueJobs [jobW2, jobW] ∧
      List.Pairwise (fun a b => a.url ≠ b.url) (uniqueJobs [jobW2, jobW]) ∧
      List.Pairwise (fun a b => a.url ≠ b.url)
        (rank (fun _ => none) (uniqueJobs [jobW2, jobW])) :=
  ⟨(uniqueJobs_idempotent [jobW2, jobW]).1,
    (uniqueJobs_idempotent [jobW2, jobW]).2.1,
    (uniqueJobs_idempotent [jobW2, jobW]).2.2 (fun _ => none)⟩

/-! ## Claim C10: absent urls default to `"#"` everywhere and collapse -/

/-- C10: all four source mappings send an absent url to the same default
`"#"`, so distinct url-less postings share the identity key `"#"`, and the
deduplicated output retains at most one posting with url `"#"`. -/
theorem url_default_collapses (skill : String) :
    (∀ a : ArbeitnowItem, a.url = none → (arbeitnowMap skill a).url = "#") ∧
      (∀ m : MuseItem, m.landingPage = none → (museMap skill m).url = "#") ∧
      (∀ r : RemoteOKItem, r.url = none → (remoteokMap skill r).url = "#") ∧
      (∀ v : RemotiveItem, v.url = none → (remotiveMap skill v).url = "#") ∧
      ∀ L : List Job, ((uniqueJobs L).filter (fun j => j.url == "#")).length ≤ 1 := by
  refine ⟨fun a ha => ?_, fun m hm => ?_, fun r hr => ?_, fun v hv => ?_, fun L => ?_⟩
  · simp [arbeitnowMap, jsOr, ha]
  · simp [museMap, jsOr, hm]
  · simp [remoteokMap, jsOr, hr]
  · simp [remotiveMap, jsOr, hv]
  · exact length_filter_url_le_one (uniqueJobs L) "#" (uniqueJobs_urls_nodup L)

/-- Witness for `url_default_collapses`: a url-less Arbeitnow item maps to
url `"#"`. -/
theorem url_default_collapses_witness :
    (({ title := none, company := none, location := none, url := none,
        created_at := none } : ArbeitnowItem).url = none) ∧
      (arbeitnowMap "SQL" { title := none, company := none, location := none,
                            url := none, created_at := none }).url = "#" :=
  ⟨rfl, (url_default_collapses "SQL").1 _ rfl⟩

/-! ## Claim C8: the ranker sorts by parsed date descending -/

theorem rankLE_trans (jsParse : String → Option ℚ) :
    ∀ a b c : Job, rankLE jsParse a b → rankLE jsParse b c → rankLE jsParse a c := by
  intro a b c hab hbc
  simp only [rankLE, decide_eq_true_eq] at hab hbc ⊢
  exact le_trans hbc hab

theorem rankLE_total (jsParse : String → Option ℚ) :
    ∀ a b : Job, rankLE jsParse a b || rankLE jsParse b a := by
  intro a b
  simp only [rankLE, Bool.or_eq_true, decide_eq_true_eq]
  exact le_total _ _

theorem rank_sorted (jsParse : String → Option ℚ) (L : List Job) :
    List.Pairwise (fun a b => dateKey jsParse b ≤ dateKey jsParse a)
      (rank jsParse L) := by
  have h := List.sorted_mergeSort (rankLE_trans jsParse) (rankLE_total jsParse) L
  unfold rank
  exact h.imp fun hab => by simpa [rankLE] using hab

/-- C8: the ranked output is a permutation of its input, and it is sorted by
parsed date descending: whenever position `i` is at or before position `j`
and both postings' dates parse, the later position's date is at most the
earlier one's. -/
theorem rank_perm_sorted_desc (jsParse : String → Option ℚ) (L : List Job) :
    (rank jsParse L).Perm L ∧
      ∀ (i j : Nat) (hi : i < (rank jsParse L).length)
        (hj : j < (rank jsParse L).length), i ≤ j → ∀ ta tb : ℚ,
        parseDate jsParse (some (((rank jsParse L).get ⟨i, hi⟩).date)) = some ta →
        parseDate jsParse (some (((rank jsParse L).get ⟨j, hj⟩).date)) = some tb →
        tb ≤ ta := by
  constructor
  · unfold rank
    exact List.mergeSort_perm L _
  · intro i j hi hj hij ta tb hta htb
    have ei : dateKey jsParse ((rank jsParse L).get ⟨i, hi⟩) = ta := by
      simp only [dateKey]
      rw [hta, Option.getD_some]
    have ej : dateKey jsParse ((rank jsParse L).get ⟨j, hj⟩) = tb := by
      simp only [dateKey]
      rw [htb, Option.getD_some]
    rcases Nat.eq_or_lt_of_le hij with rfl | hlt
    · rw [← ei, ← ej]
    · have hp := List.pairwise_iff_getElem.mp (rank_sorted jsParse L) i j hi hj hlt
      have hp2 : dateKey jsParse ((rank jsParse L).get ⟨j, hj⟩) ≤
          dateKey jsParse ((rank jsParse L).get ⟨i, hi⟩) := by
        simpa [List.get_eq_getElem] using hp
      rw [ei, ej] at hp2
      exact hp2

/-- A two-valued date-parse oracle for concrete ranking checks. -/
def pW : String → Option ℚ :=
  fun s => if s = "newer" then some 5 else if s = "older" then some 3 else none

/-- A posting dated `"newer"` (parses to 5). -/
def jobNew : Job :=
  { title := some "N", company := "C", location := "L",
    url := "n", date := "newer", skill := "Go" }

/-- A posting dated `"older"` (parses to 3). -/
def jobOld : Job :=
  { title := some "O", company := "C", location := "L",
    url := "o", date := "older", skill := "Go" }

/-- The two postings, deliberately in ascending date order. -/
def LW : List Job := [jobOld, jobNew]

/-- Witness for `rank_perm_sorted_desc`: ranking `[jobOld, jobNew]` puts the
newer posting (key 5) first and the older (key 3) second. -/
theorem rank_perm_sorted_desc_witness :
    ((0 : Nat) ≤ 1 ∧
      parseDate pW (some (((rank pW LW).get ⟨0, by simp [rank, LW]⟩).date)) = some 5 ∧
      parseDate pW (some (((rank pW LW).get ⟨1, by simp [rank, LW]⟩).date)) = some 3) ∧
      (3 : ℚ) ≤ 5 := by
  have hr : rank pW LW = [jobNew, jobOld] := by
    norm_num [rank, LW, List.mergeSort, List.merge, rankLE, dateKey, parseDate,
      pW, jobNew, jobOld]
    decide
  refine ⟨⟨by norm_num, ?_, ?_⟩, ?_⟩
  · simp [hr, parseDate, pW, jobNew]
  · simp [hr, parseDate, pW, jobOld]
  · exact (rank_perm_sorted_desc pW LW).2 0 1 (by simp [rank, LW]) (by simp [rank, LW])
      (by norm_num) 5 3 (by simp [hr, parseDate, pW, jobNew])
      (by simp [hr, parseDate, pW, jobOld])

/-! ## Claim C9: future-dated postings pass the filter and rank first -/

/-- C9: a date that parses to a moment strictly after `now` makes `isRecent`
true for every non-negative window (its age in days is negative), and in the
ranked output any posting with a parsed date later than `now` is placed
strictly before every posting whose parsed date is at most `now`. -/
theorem future_dates_recent_and_first :
    (∀ (jsParse : String → Option ℚ) (now days : ℚ) (d : Option String) (t : ℚ),
        parseDate jsParse d = some t → now < t → 0 ≤ days →
        isRecent jsParse now d days = true) ∧
      ∀ (jsParse : String → Option ℚ) (L : List Job) (i j : Nat)
        (hi : i < (rank jsParse L).length) (hj : j < (rank jsParse L).length)
        (now ta tb : ℚ),
        parseDate jsParse (some (((rank jsParse L).get ⟨i, hi⟩).date)) = some ta →
        now < ta →
        parseDate jsParse (some (((rank jsParse L).get ⟨j, hj⟩).date)) = some tb →
        tb ≤ now → i < j := by
  constructor
  · intro jsParse now days d t hpd hlt hdays
    unfold isRecent
    rw [hpd]
    simp only [decide_eq_true_eq]
    rw [div_le_iff₀ (by norm_num)]
    have h1 : (0 : ℚ) ≤ days * (1000 * 60 * 60 * 24) :=
      mul_nonneg hdays (by norm_num)
    linarith
  · intro jsParse L i j hi hj now ta tb hta hlt htb htb2
    have ei : dateKey jsParse ((rank jsParse L).get ⟨i, hi⟩) = ta := by
      simp only [dateKey]
      rw [hta, Option.getD_some]
    have ej : dateKey jsParse ((rank jsParse L).get ⟨j, hj⟩) = tb := by
      simp only [dateKey]
      rw [htb, Option.getD_some]
    by_contra hij
    push_neg at hij
    rcases Nat.eq_or_lt_of_le hij with heq | hlt2
    · subst heq
      have : ta = tb := ei.symm.trans ej
      linarith
    · have hp := List.pairwise_iff_getElem.mp (rank_sorted jsParse L) j i hj hi hlt2
      have hp2 : dateKey jsParse ((rank jsParse L).get ⟨i, hi⟩) ≤
          dateKey jsParse ((rank jsParse L).get ⟨j, hj⟩) := by
        simpa [List.get_eq_getElem] using hp
      rw [ei, ej] at hp2
      linarith

/-- A date-parse oracle with a future date (`now` will be 100). -/
def pF : String → Option ℚ :=
  fun s => if s = "future" then some 200 else if s = "past" then some 10 else none

/-- A posting dated in the future relative to `now = 100`. -/
def jobFuture : Job :=
  { title := some "F", company := "C", location := "L",
    url := "f", date := "future", skill := "AI" }

/-- A posting dated in the past relative to `now = 100`. -/
def jobPast : Job :=
  { title := some "P", company := "C", location := "L",
    url := "p", date := "past", skill := "AI" }

/-- The two postings, past first. -/
def LF : List Job := [jobPast, jobFuture]

/-- Witness for `future_dates_recent_and_first`: the future-dated posting is
recent for a 7-day window at `now = 100` and is ranked before the past-dated
posting. -/
theorem future_dates_recent_and_first_witness :
    (parseDate pF (some "future") = some 200 ∧ (100 : ℚ) < 200 ∧ (0 : ℚ) ≤ 7 ∧
      isRecent pF 100 (some "future") 7 = true) ∧
      (parseDate pF (some (((rank pF LF).get ⟨0, by simp [rank, LF]⟩).date)) = some 200 ∧
        parseDate pF (some (((rank pF LF).get ⟨1, by simp [rank, LF]⟩).date)) = some 10 ∧
        (10 : ℚ) ≤ 100 ∧ (0 : Nat) < 1) := by
  have hr : rank pF LF = [jobFuture, jobPast] := by
    norm_num [rank, LF, List.mergeSort, List.merge, rankLE, dateKey, parseDate,
      pF, jobFuture, jobPast]
    decide
  refine ⟨⟨by simp [parseDate, pF], by norm_num, by norm_num, ?_⟩, ?_, ?_, ?_⟩
  · exact future_dates_recent_and_first.1 pF 100 7 (some "future") 200
      (by simp [parseDate, pF]) (by norm_num) (by norm_num)
  · simp [hr, parseDate, pF, jobFuture]
  · simp [hr, parseDate, pF, jobPast]
  · refine ⟨by norm_num, ?_⟩
    exact future_dates_recent_and_first.2 pF LF 0 1 (by simp [rank, LF])
      (by simp [rank, LF]) 100 200 10 (by simp [hr, parseDate, pF, jobFuture])
      (by norm_num) (by simp [hr, parseDate, pF, jobPast]) (by norm_num)
